import Mathlib

/-!
Verification of the cookie codec in `cookie.go` of this repository.

Go strings are byte strings; every function modelled here inspects bytes and
rejects (or strips) every byte ≥ 0x80, and a multi-byte UTF-8 character
consists only of bytes ≥ 0x80.  Hence modelling a Go string as a Lean
`String`/`List Char` and a Go byte test as the corresponding `Char` test
yields the same accept/strip verdicts; we use that representation throughout.
-/

namespace GoHttp

/-- A parsed cookie as produced by `readCookies` in `cookie.go`: the `Name`,
`Value` and `Quoted` fields of the Go `Cookie` structure (the only fields the
request-cookie parser populates). -/
structure Cookie where
  name : String
  value : String
  quoted : Bool
deriving DecidableEq, Repr

/-- The four error values of `cookie.go` lines 38–43: `errBlankCookie`,
`errEqualNotFoundInCookie`, `errInvalidCookieName`, `errInvalidCookieValue`. -/
inductive CookieError where
  | blankCookie
  | equalNotFound
  | invalidName
  | invalidValue
deriving DecidableEq, Repr

/-- `textproto.TrimString`'s byte test: ASCII space, tab, newline or
carriage return. -/
def isASCIISpace (c : Char) : Bool :=
  c = ' ' || c = '\t' || c = '\n' || c = '\r'

/-- `textproto.TrimString`: remove leading and trailing ASCII space bytes. -/
def trimChars (l : List Char) : List Char :=
  ((l.dropWhile isASCIISpace).reverse.dropWhile isASCIISpace).reverse

/-- `strings.Cut(s, sep)` for a one-byte separator: the part before the first
occurrence of `sep`, the part after it, and whether `sep` was found. -/
def cutChar : List Char → Char → List Char × List Char × Bool
  | [], _ => ([], [], false)
  | c :: rest, sep =>
    if c = sep then ([], rest, true)
    else
      let r := cutChar rest sep
      (c :: r.1, r.2.1, r.2.2)

/-- `validCookieValueByte` (`cookie.go` line 223): `0x20 <= b && b < 0x7f &&
b != '"' && b != ';' && b != '\\'`. -/
def validCookieValueByte (c : Char) : Bool :=
  decide (0x20 ≤ c.toNat ∧ c.toNat < 0x7f ∧ c ≠ '"' ∧ c ≠ ';' ∧ c ≠ '\\')

/-- `parseCookieValue` (`cookie.go` lines 268–280): strip surrounding double
quotes when allowed, then require every remaining byte to satisfy
`validCookieValueByte`.  `none` models `ok = false`. -/
def parseCookieValue (raw : List Char) (allowDoubleQuote : Bool) :
    Option (List Char × Bool) :=
  let stripped :=
    if allowDoubleQuote ∧ 1 < raw.length ∧
        raw.head? = some '"' ∧ raw.getLast? = some '"' then
      ((raw.drop 1).dropLast, true)
    else
      (raw, false)
  if stripped.1.all validCookieValueByte then
    some stripped
  else
    none

/-- Modelled from the spec: `isNotToken` is called by `cookie.go` (line 286)
and `request.go` (line 218) but defined in a file of this repository that is
not among the provided sources.  The spec's token grammar (§4.1 step 5 and
the glossary, from RFC 2616): a token character is any CHAR (ASCII 0–127)
that is neither a control character (0–31, 127) nor one of the separators
`( ) < > @ , ; : \ " / [ ] ? = { } SP HT`; `isNotToken` holds of every other
character. -/
def isNotToken (c : Char) : Bool :=
  !(decide (c.toNat ≤ 127) &&
    !(decide (c.toNat < 32) || decide (c.toNat = 127)) &&
    !(c = '(' || c = ')' || c = '<' || c = '>' || c = '@' ||
      c = ',' || c = ';' || c = ':' || c = '\\' || c = '"' ||
      c = '/' || c = '[' || c = ']' || c = '?' || c = '=' ||
      c = Char.ofNat 0x7b || c = Char.ofNat 0x7d || c = ' ' || c = '\t'))

/-- `isCookieNameValid` (`cookie.go` lines 282–287): nonempty and no
character satisfies `isNotToken`. -/
def isCookieNameValid (raw : String) : Bool :=
  if raw = "" then false
  else raw.toList.all fun c => !(isNotToken c)

/-- The first check loop of `sanitizeOrWarn` (`cookie.go` lines 238–246):
whether every byte of `v` satisfies `valid`. -/
def sanitizeAllValid (valid : Char → Bool) : List Char → Bool
  | [] => true
  | c :: rest => if valid c then sanitizeAllValid valid rest else false

/-- The rebuild loop of `sanitizeOrWarn` (`cookie.go` lines 250–255): keep
exactly the bytes satisfying `valid`. -/
def sanitizeFilter (valid : Char → Bool) : List Char → List Char
  | [] => []
  | c :: rest =>
    if valid c then c :: sanitizeFilter valid rest
    else sanitizeFilter valid rest

set_option linter.unusedVariables false in
/-- `sanitizeOrWarn` (`cookie.go` lines 237–257).  The Go function also logs
a diagnostic when a byte is dropped; the log call has no effect on the
returned string and is omitted from this pure model.  `fieldName` only feeds
that log message. -/
def sanitizeOrWarn (fieldName : String) (valid : Char → Bool) (v : String) :
    String :=
  if sanitizeAllValid valid v.toList then v
  else String.mk (sanitizeFilter valid v.toList)

/-- `sanitizeCookieValue` (`cookie.go` lines 212–221): sanitize, return the
empty string unchanged, and wrap in double quotes when the result contains a
space or a comma (`strings.ContainsAny(v, " ,")`) or the value was
originally quoted. -/
def sanitizeCookieValue (v : String) (quoted : Bool) : String :=
  let v := sanitizeOrWarn "Cookie.Value" validCookieValueByte v
  if v.length = 0 then v
  else if v.toList.any (fun c => c = ' ' || c = ',') || quoted then
    "\"" ++ v ++ "\""
  else v

/-- The body of the inner loop of `readCookies` (`cookie.go` lines 96–115)
for one `;`-delimited segment: trim it, skip it when empty, split at the
first `=` (the `found` flag is discarded by the Go code), trim and validate
the name, apply the filter, and parse the value; each `continue` of the Go
loop is `none` here. -/
def parsePart (filter : String) (part0 : List Char) : Option Cookie :=
  let part := trimChars part0
  if part = [] then none
  else
    let c := cutChar part '='
    let name := trimChars c.1
    if !isCookieNameValid (String.mk name) then none
    else if filter ≠ "" ∧ filter ≠ String.mk name then none
    else
      match parseCookieValue c.2.1 true with
      | some (v, quoted) => some ⟨String.mk name, String.mk v, quoted⟩
      | none => none

/-- The `for len(line) > 0` loop of `readCookies` (`cookie.go` lines
96–115): repeatedly cut the line at the first `;` and process the segment.
Each iteration consumes at least one byte of `line`, so the loop runs for at
most `line.length` iterations; `fuel` bounds the iteration count to make the
recursion structural, and `readCookiesLine` supplies sufficient fuel. -/
def readCookiesLoop (filter : String) : Nat → List Char → List Cookie
  | 0, _ => []
  | fuel + 1, line =>
    if line = [] then []
    else
      let c := cutChar line ';'
      match parsePart filter c.1 with
      | some ck => ck :: readCookiesLoop filter fuel c.2.1
      | none => readCookiesLoop filter fuel c.2.1

/-- Processing of one header line by `readCookies`: trim the line
(`textproto.TrimString`, line 93), then run the segment loop. -/
def readCookiesLine (filter : String) (line : String) : List Cookie :=
  let l := trimChars line.toList
  readCookiesLoop filter l.length l

/-- `readCookies` (`cookie.go` lines 85–118): the header's `"Cookie"` values
are `lines`; return the empty list when there are none, otherwise append the
cookies parsed from each line in order. -/
def readCookies (lines : List String) (filter : String) : List Cookie :=
  if lines.isEmpty then []
  else lines.flatMap (readCookiesLine filter)

/-- The state loop of `isCookieDomainName` (`cookie.go` lines 155–189):
`last` is the previous byte (initially `'.'`), `ok` records whether a letter
has been seen, `partlen` is the current label length.  The final line models
the post-loop checks `last == '-' || partlen > 63` and the `ok` result. -/
def isCookieDomainNameLoop : List Char → Char → Bool → Nat → Bool
  | [], last, ok, partlen =>
    if last = '-' ∨ partlen > 63 then false else ok
  | c :: rest, last, ok, partlen =>
    if ('a' ≤ c ∧ c ≤ 'z') ∨ ('A' ≤ c ∧ c ≤ 'Z') then
      isCookieDomainNameLoop rest c true (partlen + 1)
    else if '0' ≤ c ∧ c ≤ '9' then
      isCookieDomainNameLoop rest c ok (partlen + 1)
    else if c = '-' then
      if last = '.' then false
      else isCookieDomainNameLoop rest c ok (partlen + 1)
    else if c = '.' then
      if last = '.' ∨ last = '-' then false
      else if partlen > 63 ∨ partlen = 0 then false
      else isCookieDomainNameLoop rest c ok 0
    else false

/-- `isCookieDomainName` (`cookie.go` lines 140–190): nonempty, at most 255
bytes, an optional leading dot is stripped, and the label grammar is checked
by `isCookieDomainNameLoop`. -/
def isCookieDomainName (s : String) : Bool :=
  let l := s.toList
  if l.length = 0 then false
  else if l.length > 255 then false
  else
    let l := if l.head? = some '.' then l.tail else l
    isCookieDomainNameLoop l '.' false 0

/-- Model of the Go standard library's dotted-decimal IPv4 parser
(`netip.parseIPv4Fields`, reached through the external dependency
`net.ParseIP` called at `cookie.go` line 125): `val` is the value of the
current field, `digLen` its digit count (a second digit after a leading `0`
is rejected), `pos` the number of completed fields; a dot with an empty
field, a trailing dot, a fifth field, or a field value above 255 is
rejected, and the string must end with exactly four fields. -/
def ipv4Go : List Char → Nat → Nat → Nat → Bool
  | [], _, _, pos => pos = 3
  | c :: rest, val, digLen, pos =>
    if '0' ≤ c ∧ c ≤ '9' then
      if digLen = 1 ∧ val = 0 then false
      else
        let v := val * 10 + (c.toNat - 48)
        if v > 255 then false else ipv4Go rest v (digLen + 1) pos
    else if c = '.' then
      if digLen = 0 then false
      else if rest = [] then false
      else if pos = 3 then false
      else ipv4Go rest 0 0 (pos + 1)
    else false

/-- Hexadecimal digit value, as in the IPv6 field reader of
`netip.parseIPv6`. -/
def hexVal (c : Char) : Option Nat :=
  if '0' ≤ c ∧ c ≤ '9' then some (c.toNat - 48)
  else if 'a' ≤ c ∧ c ≤ 'f' then some (c.toNat - 97 + 10)
  else if 'A' ≤ c ∧ c ≤ 'F' then some (c.toNat - 65 + 10)
  else none

/-- The hex-field reader of `netip.parseIPv6`: consume leading hex digits,
returning the accumulated value, the digit count and the rest; `none` models
the "field value ≥ 2^16" error. -/
def readHexField : List Char → Nat → Nat → Option (Nat × Nat × List Char)
  | [], acc, cnt => some (acc, cnt, [])
  | c :: rest, acc, cnt =>
    match hexVal c with
    | some d =>
      let a := acc * 16 + d
      if a > 0xffff then none else readHexField rest a (cnt + 1)
    | none => some (acc, cnt, c :: rest)

/-- Acceptance check after the group loop of `netip.parseIPv6`: with `rem`
16-bit groups still unfilled, the address is complete exactly when either
groups remain and a `::` was seen, or no group remains and no `::` was seen
(a `::` must expand to at least one zero group). -/
def ipv6Final (rem : Nat) (ell : Bool) : Bool :=
  if rem = 0 then !ell else ell

/-- The group loop of `netip.parseIPv6` (reached through `net.ParseIP`),
tracking `rem` = number of 16-bit groups still to fill (the Go loop index is
`i = 16 - 2*rem` bytes) and `ell` = whether a `::` has been seen.  Each
group must have at least one hex digit; a group followed by `.` re-parses
the remainder as a trailing IPv4 address (allowed only in the last two
groups, or anywhere after a `::`); a group is followed by the end of the
string, by `:` and more groups, or by one `::`. -/
def ipv6Loop : Nat → List Char → Bool → Bool
  | 0, s, ell => decide (s = []) && ipv6Final 0 ell
  | rem + 1, s, ell =>
    match readHexField s 0 0 with
    | none => false
    | some (_, cnt, rest) =>
      if cnt = 0 then false
      else
        match rest with
        | '.' :: _ =>
          if !ell ∧ rem + 1 ≠ 2 then false
          else if rem + 1 < 2 then false
          else ipv4Go s 0 0 0 && ipv6Final (rem - 1) ell
        | [] => ipv6Final rem ell
        | ':' :: rest2 =>
          match rest2 with
          | [] => false
          | ':' :: rest3 =>
            if ell then false
            else if rest3 = [] then ipv6Final rem true
            else ipv6Loop rem rest3 true
          | _ => ipv6Loop rem rest2 ell
        | _ => false

/-- The IPv6 entry point of `net.ParseIP`'s parser: `net.ParseIP` rejects
any address carrying a `%zone` (and `netip` rejects an empty zone), a
leading `::` is consumed before the group loop, and `::` alone is the
unspecified address. -/
def ipv6Go (s : List Char) : Bool :=
  if s.contains '%' then false
  else
    match s with
    | ':' :: ':' :: rest => if rest = [] then true else ipv6Loop 8 rest true
    | _ => ipv6Loop 8 s false

/-- The dispatch scan of `netip.ParseAddr`: the first occurrence of `'.'`,
`':'` or `'%'` decides between the IPv4 parser, the IPv6 parser, and a parse
error. -/
def firstSpecial : List Char → Option Char
  | [] => none
  | c :: rest =>
    if c = '.' ∨ c = ':' ∨ c = '%' then some c else firstSpecial rest

/-- Model of the external dependency `net.ParseIP(v) != nil`
(`cookie.go` line 125): dispatch on the first special character as
`netip.ParseAddr` does. -/
def parseIPOk (s : String) : Bool :=
  match firstSpecial s.toList with
  | some '.' => ipv4Go s.toList 0 0 0
  | some ':' => ipv6Go s.toList
  | _ => false

/-- Whether `s` is a literal dotted-decimal IPv4 address (what `net.ParseIP`
accepts on colon-free strings). -/
def parseIPv4Lit (s : String) : Bool :=
  ipv4Go s.toList 0 0 0

/-- `validCookieDomain` (`cookie.go` lines 121–129): a valid cookie domain
name, or a string accepted by `net.ParseIP` that does not contain `':'`. -/
def validCookieDomain (v : String) : Bool :=
  if isCookieDomainName v then true
  else if parseIPOk v && !(v.toList.contains ':') then true
  else false

/-- Claim-side domain predicate, following the spec's words (§4.2 step 5):
accept a syntactically valid DNS name, or a string that parses as a literal
IPv4 or IPv6 address without a zone or port suffix (`parseIPOk` already
rejects zones, and no address with a port suffix parses). -/
def specDomainOk (v : String) : Bool :=
  isCookieDomainName v || parseIPOk v

/-- `ParseSetCookie` (`cookie.go` lines 54–56).  Its body is
`return ParseSetCookie(line)`: an unconditional call to itself with the same
argument.  `fuel` counts call frames; `none` means no result was produced
within `fuel` frames. -/
def parseSetCookieFuel : Nat → String → Option (Except CookieError Cookie)
  | 0, _ => none
  | fuel + 1, line => parseSetCookieFuel fuel line

/-- Modelled from the spec: the intended behavior of `ParseSetCookie`
(spec §4.2, steps 1–3), whose actual delegation target is not among the
provided sources and whose in-repository body recurses into itself.  Split
at the first `;`; fail with the blank-cookie error when the pre-`;` segment
is empty, with the missing-separator error when it has no `=`, with the
invalid-name error when the trimmed name fails the token grammar, and with
the invalid-value error when the value fails the cookie-value grammar
(quotes permitted); attribute parsing is outside this model. -/
def parseSetCookieSpec (line : String) : Except CookieError Cookie :=
  let pair := trimChars (cutChar (trimChars line.toList) ';').1
  if pair = [] then .error .blankCookie
  else
    let c := cutChar pair '='
    if c.2.2 = false then .error .equalNotFound
    else
      let name := trimChars c.1
      if !isCookieNameValid (String.mk name) then .error .invalidName
      else
        match parseCookieValue c.2.1 true with
        | none => .error .invalidValue
        | some (v, quoted) => .ok ⟨String.mk name, String.mk v, quoted⟩

/-- Split at every `;`.  The cut-loop of `readCookies` visits exactly these
segments (`splitOnSemi_cut` below), in order; stated structurally so that it
is a recursor-friendly companion to `cutChar`. -/
def splitOnSemi : List Char → List (List Char)
  | [] => [[]]
  | c :: rest =>
    if c = ';' then [] :: splitOnSemi rest
    else
      match splitOnSemi rest with
      | [] => [[c]]
      | p :: ps => (c :: p) :: ps

/-- The cookie-octet range exactly as claimed: `0x21`–`0x7E` excluding `"`,
`;`, `\` (the spec's glossary entry). -/
def cookieOctetClaim (c : Char) : Bool :=
  decide (0x21 ≤ c.toNat ∧ c.toNat ≤ 0x7e ∧ c ≠ '"' ∧ c ≠ ';' ∧ c ≠ '\\')

/-- The cookie-octet range the code actually enforces, stated in the
claim's style: `0x20`–`0x7E` excluding `"`, `;`, `\` (the code also admits
the space byte `0x20`). -/
def cookieOctetAmended (c : Char) : Bool :=
  decide (0x20 ≤ c.toNat ∧ c.toNat ≤ 0x7e ∧ c ≠ '"' ∧ c ≠ ';' ∧ c ≠ '\\')

/-- The amended claim's description of cookie-value parsing as used by the
request parser: strip one pair of surrounding double quotes when the raw
text has length `> 1`, setting the quoted flag, then require every remaining
byte to be in the amended octet range. -/
def cookieValueSpecParse (raw : List Char) : Option (List Char × Bool) :=
  if 1 < raw.length ∧ raw.head? = some '"' ∧ raw.getLast? = some '"' then
    if ((raw.drop 1).dropLast).all cookieOctetAmended then
      some ((raw.drop 1).dropLast, true)
    else none
  else if raw.all cookieOctetAmended then some (raw, false) else none

/-! ### Helper lemmas -/

theorem sanitizeAllValid_eq (valid : Char → Bool) :
    ∀ l : List Char, sanitizeAllValid valid l = l.all valid
  | [] => rfl
  | c :: rest => by
    cases h : valid c <;>
      simp [sanitizeAllValid, h, sanitizeAllValid_eq valid rest]

theorem sanitizeFilter_eq (valid : Char → Bool) :
    ∀ l : List Char, sanitizeFilter valid l = l.filter valid
  | [] => rfl
  | c :: rest => by
    cases h : valid c <;>
      simp [sanitizeFilter, h, sanitizeFilter_eq valid rest, List.filter_cons]

theorem parseSetCookieFuel_eq_none :
    ∀ (fuel : Nat) (line : String), parseSetCookieFuel fuel line = none
  | 0, _ => rfl
  | fuel + 1, line => parseSetCookieFuel_eq_none fuel line

theorem cutChar_after_le (sep : Char) :
    ∀ l : List Char, ((cutChar l sep).2.1).length ≤ l.length
  | [] => Nat.le_refl 0
  | c :: rest => by
    by_cases h : c = sep
    · simp [cutChar, h]
    · have := cutChar_after_le sep rest
      simp only [cutChar, if_neg h, List.length_cons]
      omega

theorem cutChar_after_lt (l : List Char) (sep : Char) (h : l ≠ []) :
    ((cutChar l sep).2.1).length < l.length := by
  cases l with
  | nil => exact absurd rfl h
  | cons c rest =>
    by_cases hc : c = sep
    · simp [cutChar, hc]
    · have := cutChar_after_le sep rest
      simp only [cutChar, if_neg hc, List.length_cons]
      omega

theorem cutChar_not_found (sep : Char) :
    ∀ l : List Char, (cutChar l sep).2.2 = false → (cutChar l sep).2.1 = [] := by
  intro l
  induction l with
  | nil => intro _; rfl
  | cons c rest ih =>
    by_cases hc : c = sep
    · simp [cutChar, hc]
    · simp only [cutChar, if_neg hc]
      exact ih

theorem readCookiesLoop_nil (filter : String) (fuel : Nat) :
    readCookiesLoop filter fuel [] = [] := by
  cases fuel <;> rfl

theorem splitOnSemi_cut (l : List Char) :
    splitOnSemi l = (cutChar l ';').1 ::
      (if (cutChar l ';').2.2 = true then splitOnSemi ((cutChar l ';').2.1)
       else []) := by
  induction l with
  | nil => rfl
  | cons c rest ih =>
    by_cases hc : c = ';'
    · simp [splitOnSemi, cutChar, hc]
    · simp only [splitOnSemi, if_neg hc, cutChar, ih]

theorem readCookiesLoop_eq (filter : String) :
    ∀ (fuel : Nat) (l : List Char), l.length ≤ fuel →
      readCookiesLoop filter fuel l = (splitOnSemi l).filterMap (parsePart filter) := by
  intro fuel
  induction fuel with
  | zero =>
    intro l hl
    have hnil : l = [] := List.eq_nil_of_length_eq_zero (Nat.le_zero.mp hl)
    subst hnil
    rfl
  | succ fuel ih =>
    intro l hl
    by_cases hnil : l = []
    · subst hnil; rfl
    · rw [splitOnSemi_cut l]
      have hlt : ((cutChar l ';').2.1).length < l.length := cutChar_after_lt l ';' hnil
      have hrec := ih ((cutChar l ';').2.1) (by omega)
      simp only [readCookiesLoop, if_neg hnil, List.filterMap_cons]
      cases hfound : (cutChar l ';').2.2 with
      | false =>
        have hafter : (cutChar l ';').2.1 = [] := cutChar_not_found ';' l hfound
        cases hp : parsePart filter (cutChar l ';').1 <;>
          simp [hp, hafter, hrec, readCookiesLoop_nil]
      | true =>
        cases hp : parsePart filter (cutChar l ';').1 <;>
          simp [hp, hrec]

theorem readCookiesLine_eq (filter : String) (line : String) :
    readCookiesLine filter line =
      (splitOnSemi (trimChars line.toList)).filterMap (parsePart filter) :=
  readCookiesLoop_eq filter _ _ (Nat.le_refl _)

/-! ### Claim theorems -/

/-- Claim C9: `sanitizeOrWarn` never fails: for every validity predicate and
input string it returns the input unchanged when all bytes satisfy the
predicate, and otherwise returns the subsequence of the input's bytes that
satisfy the predicate. -/
theorem sanitizeOrWarn_never_fails (fieldName : String) (valid : Char → Bool)
    (v : String) :
    (v.toList.all valid = true → sanitizeOrWarn fieldName valid v = v) ∧
    (v.toList.all valid = false →
      sanitizeOrWarn fieldName valid v = String.mk (v.toList.filter valid)) := by
  constructor <;> intro h <;>
    simp only [sanitizeOrWarn, sanitizeAllValid_eq, sanitizeFilter_eq, h] <;>
    simp

theorem sanitizeOrWarn_never_fails_witness :
    ("ab".toList.all validCookieValueByte = true ∧
      sanitizeOrWarn "Cookie.Value" validCookieValueByte "ab" = "ab") ∧
    ("a\nb".toList.all validCookieValueByte = false ∧
      sanitizeOrWarn "Cookie.Value" validCookieValueByte "a\nb" =
        String.mk ("a\nb".toList.filter validCookieValueByte)) :=
  ⟨⟨by decide,
    (sanitizeOrWarn_never_fails "Cookie.Value" validCookieValueByte "ab").1
      (by decide)⟩,
   ⟨by decide,
    (sanitizeOrWarn_never_fails "Cookie.Value" validCookieValueByte "a\nb").2
      (by decide)⟩⟩

/-- Claim C10: whenever value sanitization strips every byte of `v` (in
particular for `v = ""`), `sanitizeCookieValue v quoted` is the empty string
with no surrounding quotes, for either value of `quoted`. -/
theorem sanitizeCookieValue_all_stripped_empty (v : String) (quoted : Bool)
    (h : sanitizeOrWarn "Cookie.Value" validCookieValueByte v = "") :
    sanitizeCookieValue v quoted = "" := by
  simp [sanitizeCookieValue, h]

theorem sanitizeCookieValue_all_stripped_empty_witness :
    sanitizeOrWarn "Cookie.Value" validCookieValueByte "" = "" ∧
    sanitizeCookieValue "" true = "" :=
  ⟨by decide, sanitizeCookieValue_all_stripped_empty "" true (by decide)⟩

/-- Claim C7: `sanitizeCookieValue "hello, world" false` produces the quoted
form (the value contains a comma and a space), and `parseCookieValue` with
double quotes allowed parses that form back to the original value with the
quoted flag set. -/
theorem cookieValue_quote_roundtrip_hello_world :
    sanitizeCookieValue "hello, world" false = "\"hello, world\"" ∧
    parseCookieValue ("\"hello, world\"").toList true =
      some ("hello, world".toList, true) := by
  exact ⟨by decide, by decide⟩

/-- Claim C1 (code bug): the source's `ParseSetCookie` body is an
unconditional call to itself, so on `""`, `"foo"` and `"=bar"` it produces
no result at any call depth, while the spec-modelled parser returns the
blank-cookie, missing-separator and invalid-name errors there as the claim
states. -/
theorem parseSetCookie_self_recursion_spec_errors :
    (∀ fuel : Nat,
      parseSetCookieFuel fuel "" = none ∧
      parseSetCookieFuel fuel "foo" = none ∧
      parseSetCookieFuel fuel "=bar" = none) ∧
    parseSetCookieSpec "" = Except.error CookieError.blankCookie ∧
    parseSetCookieSpec "foo" = Except.error CookieError.equalNotFound ∧
    parseSetCookieSpec "=bar" = Except.error CookieError.invalidName :=
  ⟨fun fuel =>
    ⟨parseSetCookieFuel_eq_none fuel "", parseSetCookieFuel_eq_none fuel "foo",
     parseSetCookieFuel_eq_none fuel "=bar"⟩,
   rfl, rfl, rfl⟩

/-- Claim C2 (code bug): the segment loop of `readCookies` terminates — any
fuel of at least the line length yields its value — but `ParseSetCookie`
calls itself with an unchanged argument and returns no result at any call
depth for any input, so not every cookie-codec operation terminates. -/
theorem cookieCodec_termination :
    (∀ (fuel : Nat) (line : String), parseSetCookieFuel fuel line = none) ∧
    (∀ (filter : String) (fuel : Nat) (l : List Char), l.length ≤ fuel →
      readCookiesLoop filter fuel l = readCookiesLoop filter l.length l) :=
  ⟨parseSetCookieFuel_eq_none,
   fun filter fuel l h => by
     rw [readCookiesLoop_eq filter fuel l h,
       readCookiesLoop_eq filter l.length l (Nat.le_refl _)]⟩

theorem cookieCodec_termination_witness :
    ("a=b; c=d".toList.length ≤ 100) ∧
    readCookiesLoop "" 100 "a=b; c=d".toList =
      readCookiesLoop "" ("a=b; c=d".toList.length) "a=b; c=d".toList :=
  ⟨by decide, cookieCodec_termination.2 "" 100 "a=b; c=d".toList (by decide)⟩

/-- Claim C5: `readCookies` never returns an error (it is a total function
into cookie lists); with no header lines, or with a line of only separators
such as `"; ; ;"`, it returns the empty list. -/
theorem readCookies_empty_and_separators (filter : String) :
    readCookies [] filter = [] ∧ readCookies ["; ; ;"] filter = [] := by
  constructor
  · rfl
  · have ht0 : trimChars ([] : List Char) = [] := by decide
    have ht1 : trimChars [' '] = [] := by decide
    have h0 : parsePart filter [] = none := by simp [parsePart, ht0]
    have h1 : parsePart filter [' '] = none := by simp [parsePart, ht1]
    have hsplit : splitOnSemi (trimChars [';', ' ', ';', ' ', ';']) =
        [[], [' '], [' '], []] := by decide
    simp [readCookies, readCookiesLine_eq, hsplit, h0, h1]

theorem parseCookieValue_some_all {raw v : List Char} {adq q : Bool}
    (h : parseCookieValue raw adq = some (v, q)) :
    v.all validCookieValueByte = true := by
  by_cases hA : adq ∧ 1 < raw.length ∧ raw.head? = some '"' ∧
      raw.getLast? = some '"' <;>
    simp [parseCookieValue, hA] at h <;>
    obtain ⟨hall, hv, hq⟩ := h <;>
    subst hv <;>
    simpa using hall

theorem parsePart_some {f : String} {p : List Char} {ck : Cookie}
    (h : parsePart f p = some ck) :
    isCookieNameValid ck.name = true ∧
    ck.value.toList.all validCookieValueByte = true := by
  unfold parsePart at h
  by_cases hp : trimChars p = []
  · simp [hp] at h
  · simp only [if_neg hp] at h
    by_cases hn : isCookieNameValid
        (String.mk (trimChars (cutChar (trimChars p) '=').1)) = true
    · simp only [hn, Bool.not_true, Bool.false_eq_true, if_false, ite_false] at h
      by_cases hf : f ≠ "" ∧ f ≠ String.mk (trimChars (cutChar (trimChars p) '=').1)
      · simp [hf] at h
      · simp only [if_neg hf] at h
        cases hpv : parseCookieValue (cutChar (trimChars p) '=').2.1 true with
        | none => rw [hpv] at h; exact absurd h (by simp)
        | some vq =>
          obtain ⟨v, q⟩ := vq
          rw [hpv] at h
          simp only [Option.some.injEq] at h
          subst h
          exact ⟨hn, parseCookieValue_some_all hpv⟩
    · simp only [Bool.not_eq_true] at hn
      simp [hn] at h

theorem mem_readCookies_exists {lines : List String} {f : String} {ck : Cookie}
    (h : ck ∈ readCookies lines f) : ∃ p, parsePart f p = some ck := by
  unfold readCookies at h
  by_cases he : lines.isEmpty
  · simp [he] at h
  · rw [if_neg he] at h
    obtain ⟨line, _, hmem⟩ := List.mem_flatMap.mp h
    rw [readCookiesLine_eq] at hmem
    obtain ⟨p, _, hps⟩ := List.mem_filterMap.mp hmem
    exact ⟨p, hps⟩

/-- Claim C6: every cookie produced by `readCookies` has a name accepted by
`isCookieNameValid`; segments with empty or invalid names never contribute
a cookie. -/
theorem readCookies_name_valid_invariant :
    ∀ (lines : List String) (filter : String) (ck : Cookie),
      ck ∈ readCookies lines filter → isCookieNameValid ck.name = true := by
  intro lines filter ck h
  obtain ⟨p, hp⟩ := mem_readCookies_exists h
  exact (parsePart_some hp).1

theorem readCookies_name_valid_invariant_witness :
    (⟨"a", "b", false⟩ : Cookie) ∈ readCookies ["a=b"] "" ∧
    isCookieNameValid (Cookie.mk "a" "b" false).name = true :=
  ⟨by decide,
   readCookies_name_valid_invariant ["a=b"] "" ⟨"a", "b", false⟩ (by decide)⟩

/-- Claim C3 counterexample: on the header line `a=b c` the code emits the
cookie `a` with value `b c`, although that value contains the space byte
0x20, which lies outside the claimed cookie-octet range 0x21–0x7E — so a
segment whose value has a byte outside the claimed range is not discarded. -/
theorem readCookies_space_value_counterexample :
    readCookies ["a=b c"] "" = [⟨"a", "b c", false⟩] ∧
    ' ' ∈ "b c".toList ∧ cookieOctetClaim ' ' = false :=
  ⟨by decide, by decide, by decide⟩

theorem validCookieValueByte_eq_amended :
    validCookieValueByte = cookieOctetAmended := by
  funext c
  unfold validCookieValueByte cookieOctetAmended
  rw [decide_eq_decide]
  constructor
  · rintro ⟨h1, h2, h3, h4, h5⟩
    exact ⟨h1, by omega, h3, h4, h5⟩
  · rintro ⟨h1, h2, h3, h4, h5⟩
    exact ⟨h1, by omega, h3, h4, h5⟩

/-- Claim C3 (amended): the value part of a request-cookie segment is parsed
by stripping one pair of surrounding double quotes (setting the quoted flag)
when the text has length > 1, and every remaining byte must lie in
0x20–0x7E excluding `"`, `;`, `\` (the code admits the space byte 0x20 in
addition to the claimed 0x21–0x7E); a segment with a byte outside that range
yields no cookie, so every emitted cookie value is within the range. -/
theorem parseCookieValue_amended_octet_range :
    (∀ raw : List Char, parseCookieValue raw true = cookieValueSpecParse raw) ∧
    (∀ (lines : List String) (f : String) (ck : Cookie),
      ck ∈ readCookies lines f →
        ck.value.toList.all cookieOctetAmended = true) := by
  constructor
  · intro raw
    by_cases hA : 1 < raw.length ∧ raw.head? = some '"' ∧
        raw.getLast? = some '"' <;>
      simp [parseCookieValue, cookieValueSpecParse,
        validCookieValueByte_eq_amended, hA]
  · intro lines f ck h
    obtain ⟨p, hp⟩ := mem_readCookies_exists h
    have hv := (parsePart_some hp).2
    rwa [validCookieValueByte_eq_amended] at hv

theorem parseCookieValue_amended_octet_range_witness :
    (⟨"a", "b c", false⟩ : Cookie) ∈ readCookies ["a=b c"] "" ∧
    (Cookie.mk "a" "b c" false).value.toList.all cookieOctetAmended = true :=
  ⟨by decide,
   parseCookieValue_amended_octet_range.2 ["a=b c"] "" ⟨"a", "b c", false⟩
     (by decide)⟩

theorem parsePart_filter {f : String} (hf : f ≠ "") (p : List Char) :
    parsePart f p = (parsePart "" p).filter (fun ck => ck.name == f) := by
  unfold parsePart
  by_cases hp : trimChars p = []
  · simp [hp, Option.filter]
  · simp only [if_neg hp]
    by_cases hn : isCookieNameValid
        (String.mk (trimChars (cutChar (trimChars p) '=').1)) = true
    · simp only [hn, Bool.not_true, Bool.false_eq_true, if_false, ite_false]
      cases hpv : parseCookieValue (cutChar (trimChars p) '=').2.1 true with
      | none => simp [Option.filter]
      | some vq =>
        obtain ⟨v, q⟩ := vq
        by_cases hfn : f = String.mk (trimChars (cutChar (trimChars p) '=').1)
        · simp [hf, hfn, Option.filter]
        · simp [hf, Ne.symm hfn, Option.filter, hfn]
    · simp only [Bool.not_eq_true] at hn
      simp [hn, Option.filter]

theorem filterMap_filter_comm {α β : Type} (g : α → Option β) (q : β → Bool) :
    ∀ l : List α,
      (l.filterMap g).filter q = l.filterMap fun a => (g a).filter q
  | [] => rfl
  | a :: l => by
    cases hg : g a with
    | none =>
      simp [List.filterMap_cons, hg, Option.filter,
        filterMap_filter_comm g q l]
    | some b =>
      cases hq : q b <;>
        simp [List.filterMap_cons, hg, Option.filter, hq, List.filter_cons,
          filterMap_filter_comm g q l]

theorem filter_flatMap_comm {α β : Type} (g : α → List β) (q : β → Bool) :
    ∀ l : List α,
      (l.flatMap g).filter q = l.flatMap fun a => (g a).filter q
  | [] => rfl
  | a :: l => by
    simp [List.flatMap_cons, List.filter_append, filter_flatMap_comm g q l]

/-- Claim C8: `readCookies` emits one cookie per surviving segment, per line
and segment in original left-to-right order (the `flatMap`/`filterMap`
characterization), duplicate names all retained; and a non-empty `filter`
restricts the output to exactly the cookies whose name equals the filter. -/
theorem readCookies_order_duplicates_filter :
    readCookies ["a=1; a=2"] "" =
      [⟨"a", "1", false⟩, ⟨"a", "2", false⟩] ∧
    (∀ (lines : List String) (f : String),
      readCookies lines f = lines.flatMap fun line =>
        (splitOnSemi (trimChars line.toList)).filterMap (parsePart f)) ∧
    (∀ (lines : List String) (f : String), f ≠ "" →
      readCookies lines f =
        (readCookies lines "").filter fun ck => ck.name == f) := by
  have hchar : ∀ (lines : List String) (f : String),
      readCookies lines f = lines.flatMap fun line =>
        (splitOnSemi (trimChars line.toList)).filterMap (parsePart f) := by
    intro lines f
    unfold readCookies
    by_cases he : lines.isEmpty
    · rw [if_pos he, List.isEmpty_iff.mp he, List.flatMap_nil]
    · rw [if_neg he]
      have hfun : readCookiesLine f = fun line =>
          (splitOnSemi (trimChars line.toList)).filterMap (parsePart f) :=
        funext (readCookiesLine_eq f)
      rw [hfun]
  refine ⟨by decide, hchar, ?_⟩
  intro lines f hf
  have hpp : parsePart f =
      fun p => (parsePart "" p).filter (fun ck => ck.name == f) :=
    funext (parsePart_filter hf)
  rw [hchar lines f, hchar lines "", filter_flatMap_comm]
  congr 1
  funext line
  rw [filterMap_filter_comm, hpp]

theorem readCookies_order_duplicates_filter_witness :
    ("b" : String) ≠ "" ∧
    readCookies ["a=1; b=2"] "b" =
      (readCookies ["a=1; b=2"] "").filter (fun ck => ck.name == "b") :=
  ⟨by decide,
   readCookies_order_duplicates_filter.2.2 ["a=1; b=2"] "b" (by decide)⟩

theorem firstSpecial_some :
    ∀ (l : List Char) (c : Char), firstSpecial l = some c →
      (c = '.' ∨ c = ':' ∨ c = '%') ∧ c ∈ l := by
  intro l
  induction l with
  | nil => intro c h; simp [firstSpecial] at h
  | cons a rest ih =>
    intro c h
    simp only [firstSpecial] at h
    split at h
    case isTrue ha =>
      obtain rfl : a = c := by simpa using h
      exact ⟨ha, List.mem_cons_self a rest⟩
    case isFalse =>
      obtain ⟨hs, hm⟩ := ih c h
      exact ⟨hs, List.mem_cons_of_mem a hm⟩

theorem firstSpecial_none :
    ∀ l : List Char, firstSpecial l = none →
      ∀ c ∈ l, ¬(c = '.' ∨ c = ':' ∨ c = '%') := by
  intro l
  induction l with
  | nil => intro _ c hc; simp at hc
  | cons a rest ih =>
    intro h c hc
    simp only [firstSpecial] at h
    split at h
    case isTrue => simp at h
    case isFalse ha =>
      rcases List.mem_cons.mp hc with rfl | hc'
      · exact ha
      · exact ih h c hc'

theorem ipv4Go_chars :
    ∀ (l : List Char) (val dig pos : Nat), ipv4Go l val dig pos = true →
      ∀ c ∈ l, ('0' ≤ c ∧ c ≤ '9') ∨ c = '.' := by
  intro l
  induction l with
  | nil => intro val dig pos _ c hc; simp at hc
  | cons a rest ih =>
    intro val dig pos h c hc
    simp only [ipv4Go] at h
    split at h
    case isTrue hd =>
      split at h
      case isTrue => simp at h
      case isFalse =>
        split at h
        case isTrue => simp at h
        case isFalse =>
          rcases List.mem_cons.mp hc with rfl | hc'
          · exact Or.inl hd
          · exact ih _ _ _ h c hc'
    case isFalse =>
      split at h
      case isTrue hdot =>
        split at h
        case isTrue => simp at h
        case isFalse =>
          split at h
          case isTrue => simp at h
          case isFalse =>
            split at h
            case isTrue => simp at h
            case isFalse =>
              rcases List.mem_cons.mp hc with rfl | hc'
              · exact Or.inr hdot
              · exact ih _ _ _ h c hc'
      case isFalse => simp at h

theorem ipv4Go_dot :
    ∀ (l : List Char) (val dig pos : Nat), ipv4Go l val dig pos = true →
      pos < 3 → '.' ∈ l := by
  intro l
  induction l with
  | nil =>
    intro val dig pos h hpos
    have hp3 : pos = 3 := by simpa [ipv4Go] using h
    exact absurd hp3 (by omega)
  | cons a rest ih =>
    intro val dig pos h hpos
    simp only [ipv4Go] at h
    split at h
    case isTrue =>
      split at h
      case isTrue => simp at h
      case isFalse =>
        split at h
        case isTrue => simp at h
        case isFalse => exact List.mem_cons_of_mem a (ih _ _ _ h hpos)
    case isFalse =>
      split at h
      case isTrue hdot => rw [← hdot]; exact List.mem_cons_self a rest
      case isFalse => simp at h

theorem parseIP_no_colon (v : String) :
    (parseIPOk v && !(v.toList.contains ':')) = parseIPv4Lit v := by
  unfold parseIPOk parseIPv4Lit
  cases hfs : firstSpecial v.toList with
  | none =>
    cases h4 : ipv4Go v.toList 0 0 0 with
    | false => simp
    | true =>
      have hdot : '.' ∈ v.toList := ipv4Go_dot _ _ _ _ h4 (by omega)
      have := firstSpecial_none _ hfs '.' hdot
      simp at this
  | some c =>
    obtain ⟨hs, hm⟩ := firstSpecial_some _ c hfs
    rcases hs with rfl | rfl | rfl
    · cases h4 : ipv4Go v.toList 0 0 0 with
      | false => simp [h4]
      | true =>
        have hnc : ':' ∉ v.toList := by
          intro hmem
          rcases ipv4Go_chars _ _ _ _ h4 ':' hmem with ⟨_, h2⟩ | h3
          · exact absurd h2 (by decide)
          · exact absurd h3 (by decide)
        simp [h4]
        exact hnc
    · have h4f : ipv4Go v.toList 0 0 0 = false := by
        cases h4 : ipv4Go v.toList 0 0 0 with
        | false => rfl
        | true =>
          rcases ipv4Go_chars _ _ _ _ h4 ':' hm with ⟨_, h2⟩ | h3
          · exact absurd h2 (by decide)
          · exact absurd h3 (by decide)
      have hm' : ':' ∈ v.data := hm
      have h4f' : ipv4Go v.data 0 0 0 = false := h4f
      simp [hm', h4f']
    · have h4f : ipv4Go v.toList 0 0 0 = false := by
        cases h4 : ipv4Go v.toList 0 0 0 with
        | false => rfl
        | true =>
          rcases ipv4Go_chars _ _ _ _ h4 '%' hm with ⟨h1, _⟩ | h3
          · exact absurd h1 (by decide)
          · exact absurd h3 (by decide)
      have h4f' : ipv4Go v.data 0 0 0 = false := h4f
      simp [h4f']

/-- Claim C4 counterexample: `"::1"` is a literal IPv6 address with no zone
or port suffix, so the claim's acceptance condition holds of it, yet
`validCookieDomain` rejects it (the validator requires the string to
contain no `':'`). -/
theorem validCookieDomain_ipv6_counterexample :
    validCookieDomain "::1" = false ∧ specDomainOk "::1" = true :=
  ⟨by decide, by decide⟩

/-- Claim C4 (amended): `validCookieDomain` accepts exactly the
syntactically valid (optionally dot-prefixed) cookie domain names together
with the literal IPv4 addresses; literal IPv6 addresses are rejected,
because the validator additionally requires the string to contain no `':'`
and every IPv6 textual form contains one. -/
theorem validCookieDomain_amended_ipv4_only (v : String) :
    validCookieDomain v = (isCookieDomainName v || parseIPv4Lit v) := by
  unfold validCookieDomain
  cases hd : isCookieDomainName v with
  | true => simp
  | false =>
    simp only [Bool.false_eq_true, if_false, Bool.false_or]
    rw [← parseIP_no_colon v]
    cases hx : (parseIPOk v && !(v.toList.contains ':')) <;> simp [hx]

end GoHttp
